import Mathlib

/-!
Verification development for the document-processing core of the
`agentchatbot` repository (`src/document_processor.py`).

The Python code is shallowly embedded: text is a `List α` (Python slicing
is element-agnostic, so the chunker is polymorphic), fallible collaborator
calls return `Except`, and the `while` loop of `chunk_text` is modelled
with explicit fuel, returning `none` exactly when the Python loop would
not terminate.
-/

namespace AgentChatbot

/-- Embedding of the `while start < len(text)` loop of
`DocumentProcessor.chunk_text` (src/document_processor.py lines 99-107).
Each iteration appends `text[start:start+chunk_size]` and sets
`start = (start + chunk_size) - overlap` (Python computes `end - overlap`
with `end = start + chunk_size`; for naturals with `overlap < chunk_size`
the Nat subtraction agrees with Python's).  Fuel exhaustion returns
`none`, which models the Python loop running forever (which happens
exactly when `overlap ≥ chunk_size`). -/
def chunkLoop {α : Type} : Nat → List α → Nat → Nat → Nat → Option (List (List α))
  | 0, _, _, _, _ => none
  | fuel + 1, text, chunk_size, overlap, start =>
    if start < text.length then
      match chunkLoop fuel text chunk_size overlap (start + chunk_size - overlap) with
      | some rest => some (((text.drop start).take chunk_size) :: rest)
      | none => none
    else
      some []

/-- Embedding of `DocumentProcessor.chunk_text` (lines 94-107):
if `len(text) <= chunk_size` return `[text]`, otherwise run the window
loop from `start = 0`.  Fuel `text.length + 1` is sufficient whenever
`overlap < chunk_size` because `start` strictly increases each iteration
(proved in `chunkLoop_terminates`). -/
def chunk_text {α : Type} (text : List α) (chunk_size overlap : Nat) :
    Option (List (List α)) :=
  if text.length ≤ chunk_size then some [text]
  else chunkLoop (text.length + 1) text chunk_size overlap 0

/-- With `overlap < chunk_size` the loop terminates: any fuel exceeding
`text.length - start` yields a result. -/
theorem chunkLoop_terminates {α : Type} (text : List α) (cs ov : Nat) (hov : ov < cs) :
    ∀ fuel start, text.length - start < fuel →
      ∃ l, chunkLoop fuel text cs ov start = some l := by
  intro fuel
  induction fuel with
  | zero => intro start h; omega
  | succ f ih =>
    intro start h
    by_cases hs : start < text.length
    · have hstep : start + cs - ov = start + (cs - ov) := by omega
      have hlt : text.length - (start + cs - ov) < f := by omega
      obtain ⟨rest, hrest⟩ := ih (start + cs - ov) hlt
      exact ⟨((text.drop start).take cs) :: rest, by simp [chunkLoop, hs, hrest]⟩
    · exact ⟨[], by simp [chunkLoop, hs]⟩

/-- One unfolding step of the loop while `start` is inside the text. -/
theorem chunkLoop_cons {α : Type} (fuel : Nat) (text : List α) (cs ov start : Nat)
    (h : start < text.length) :
    chunkLoop (fuel + 1) text cs ov start =
      match chunkLoop fuel text cs ov (start + cs - ov) with
      | some rest => some (((text.drop start).take cs) :: rest)
      | none => none := by
  simp [chunkLoop, h]

/-- The loop stops as soon as `start` reaches or exceeds the text length. -/
theorem chunkLoop_nil {α : Type} (fuel : Nat) (text : List α) (cs ov start : Nat)
    (h : text.length ≤ start) :
    chunkLoop (fuel + 1) text cs ov start = some [] := by
  simp [chunkLoop, Nat.not_lt.mpr h]

/-- Positional description of the loop's output: the `k`-th produced chunk
is `text[start + k*(cs-ov) : start + k*(cs-ov) + cs]`. -/
theorem chunkLoop_getD {α : Type} (text : List α) (cs ov : Nat) (hov : ov ≤ cs) :
    ∀ fuel start l, chunkLoop fuel text cs ov start = some l →
      ∀ k, k < l.length →
        l.getD k [] = (text.drop (start + k * (cs - ov))).take cs := by
  intro fuel
  induction fuel with
  | zero => intro start l h; simp [chunkLoop] at h
  | succ f ih =>
    intro start l h k hk
    by_cases hs : start < text.length
    · rw [chunkLoop_cons f text cs ov start hs] at h
      cases hrec : chunkLoop f text cs ov (start + cs - ov) with
      | none => rw [hrec] at h; simp at h
      | some rest =>
        rw [hrec] at h
        simp only [Option.some.injEq] at h
        subst h
        cases k with
        | zero => simp
        | succ j =>
          simp only [List.length_cons, Nat.succ_lt_succ_iff] at hk
          have h1 := ih (start + cs - ov) rest hrec j hk
          have h2 : start + cs - ov + j * (cs - ov) = start + (j + 1) * (cs - ov) := by
            cases Nat.le.dest hov with
            | intro d hd => subst hd; ring_nf; omega
          rw [h2] at h1
          simpa using h1
    · rw [chunkLoop_nil f text cs ov start (Nat.not_lt.mp hs)] at h
      simp only [Option.some.injEq] at h
      subst h
      simp at hk

/-- Every chunk the loop produces begins strictly inside the text. -/
theorem chunkLoop_start_lt {α : Type} (text : List α) (cs ov : Nat) (hov : ov ≤ cs) :
    ∀ fuel start l, chunkLoop fuel text cs ov start = some l →
      ∀ k, k < l.length → start + k * (cs - ov) < text.length := by
  intro fuel
  induction fuel with
  | zero => intro start l h; simp [chunkLoop] at h
  | succ f ih =>
    intro start l h k hk
    by_cases hs : start < text.length
    · rw [chunkLoop_cons f text cs ov start hs] at h
      cases hrec : chunkLoop f text cs ov (start + cs - ov) with
      | none => rw [hrec] at h; simp at h
      | some rest =>
        rw [hrec] at h
        simp only [Option.some.injEq] at h
        subst h
        cases k with
        | zero => simpa
        | succ j =>
          simp only [List.length_cons, Nat.succ_lt_succ_iff] at hk
          have := ih (start + cs - ov) rest hrec j hk
          have harith : start + cs - ov + j * (cs - ov) = start + (j + 1) * (cs - ov) := by
            cases Nat.le.dest hov with
            | intro d hd => subst hd; ring_nf; omega
          omega
    · rw [chunkLoop_nil f text cs ov start (Nat.not_lt.mp hs)] at h
      simp only [Option.some.injEq] at h
      subst h
      simp at hk

/-- When the loop stops, the pointer has reached or passed the end: the
produced chunks' starting offsets cover the whole text. -/
theorem chunkLoop_covers {α : Type} (text : List α) (cs ov : Nat) :
    ∀ fuel start l, chunkLoop fuel text cs ov start = some l →
      text.length ≤ start + l.length * (cs - ov) := by
  intro fuel
  induction fuel with
  | zero => intro start l h; simp [chunkLoop] at h
  | succ f ih =>
    intro start l h
    by_cases hs : start < text.length
    · rw [chunkLoop_cons f text cs ov start hs] at h
      cases hrec : chunkLoop f text cs ov (start + cs - ov) with
      | none => rw [hrec] at h; simp at h
      | some rest =>
        rw [hrec] at h
        simp only [Option.some.injEq] at h
        subst h
        have := ih (start + cs - ov) rest hrec
        simp only [List.length_cons, Nat.succ_mul]
        omega
    · rw [chunkLoop_nil f text cs ov start (Nat.not_lt.mp hs)] at h
      simp only [Option.some.injEq] at h
      subst h
      simp only [List.length_nil, Nat.zero_mul, Nat.add_zero]
      omega

/-- Every chunk the loop produces has length at most `cs`. -/
theorem chunkLoop_mem_length {α : Type} (text : List α) (cs ov : Nat) :
    ∀ fuel start l, chunkLoop fuel text cs ov start = some l →
      ∀ c ∈ l, c.length ≤ cs := by
  intro fuel
  induction fuel with
  | zero => intro start l h; simp [chunkLoop] at h
  | succ f ih =>
    intro start l h c hc
    by_cases hs : start < text.length
    · rw [chunkLoop_cons f text cs ov start hs] at h
      cases hrec : chunkLoop f text cs ov (start + cs - ov) with
      | none => rw [hrec] at h; simp at h
      | some rest =>
        rw [hrec] at h
        simp only [Option.some.injEq] at h
        subst h
        rcases List.mem_cons.mp hc with hc | hc
        · subst hc
          simp only [List.length_take]
          exact Nat.min_le_left cs _
        · exact ih (start + cs - ov) rest hrec c hc
    · rw [chunkLoop_nil f text cs ov start (Nat.not_lt.mp hs)] at h
      simp only [Option.some.injEq] at h
      subst h
      simp at hc

/-- The non-overlapping residues of a list of chunks after the first:
each chunk's suffix beyond the previous chunk, i.e. with its first
`ov` elements (the part shared with the previous window) removed. -/
def reconsTail {α : Type} (ov : Nat) (l : List (List α)) : List α :=
  (l.map (fun c => c.drop ov)).flatten

/-- Concatenation of the first chunk with every later chunk's
non-overlapping residue. -/
def reconstruct {α : Type} (ov : Nat) : List (List α) → List α
  | [] => []
  | c :: rest => c ++ reconsTail ov rest

/-- The residues of the chunks the loop produces from `start` concatenate
to exactly `text[start + ov :]`. -/
theorem chunkLoop_reconsTail {α : Type} (text : List α) (cs ov : Nat) (hov : ov ≤ cs) :
    ∀ fuel start l, chunkLoop fuel text cs ov start = some l →
      reconsTail ov l = text.drop (start + ov) := by
  intro fuel
  induction fuel with
  | zero => intro start l h; simp [chunkLoop] at h
  | succ f ih =>
    intro start l h
    by_cases hs : start < text.length
    · rw [chunkLoop_cons f text cs ov start hs] at h
      cases hrec : chunkLoop f text cs ov (start + cs - ov) with
      | none => rw [hrec] at h; simp at h
      | some rest =>
        rw [hrec] at h
        simp only [Option.some.injEq] at h
        subst h
        have hih := ih (start + cs - ov) rest hrec
        have h1 : start + cs - ov + ov = start + cs := by omega
        rw [h1] at hih
        simp only [reconsTail, List.map_cons, List.flatten_cons]
        simp only [reconsTail] at hih
        rw [hih, List.drop_take, List.drop_drop]
        have h2 : start + cs = start + ov + (cs - ov) := by omega
        rw [h2, ← List.drop_drop (cs - ov) (start + ov) text]
        exact List.take_append_drop (cs - ov) (text.drop (start + ov))
    · rw [chunkLoop_nil f text cs ov start (Nat.not_lt.mp hs)] at h
      simp only [Option.some.injEq] at h
      subst h
      have : text.length ≤ start + ov := by omega
      simp [reconsTail, List.drop_eq_nil_of_le this]

/-- For any successful run of `chunk_text` with `overlap < chunk_size`, the first
chunk followed by each later chunk's non-overlapping residue rebuilds the
input text exactly. -/
theorem chunk_text_reconstruct {α : Type} (text : List α) (cs ov : Nat) (hov : ov < cs)
    (l : List (List α)) (hl : chunk_text text cs ov = some l) :
    reconstruct ov l = text := by
  unfold chunk_text at hl
  by_cases h : text.length ≤ cs
  · rw [if_pos h] at hl
    simp only [Option.some.injEq] at hl
    subst hl
    simp [reconstruct, reconsTail]
  · rw [if_neg h] at hl
    have h0 : 0 < text.length := by omega
    rw [chunkLoop_cons text.length text cs ov 0 h0] at hl
    cases hrec : chunkLoop text.length text cs ov (0 + cs - ov) with
    | none => rw [hrec] at hl; simp at hl
    | some rest =>
      rw [hrec] at hl
      simp only [Option.some.injEq] at hl
      subst hl
      have hih := chunkLoop_reconsTail text cs ov (Nat.le_of_lt hov) _ _ _ hrec
      have h1 : 0 + cs - ov + ov = cs := by omega
      rw [h1] at hih
      show (((text.drop 0).take cs) ++ reconsTail ov rest : List α) = text
      rw [hih, List.drop_zero]
      exact List.take_append_drop cs text

/-- Concrete evaluation of the spec's chunking scenario: the windows for
2500 identical characters with `chunk_size = 1000`, `overlap = 200` are
the four slices at offsets 0, 800, 1600 and 2400. -/
theorem chunk2500 : chunk_text (List.replicate 2500 'a') 1000 200 =
    some [List.replicate 1000 'a', List.replicate 1000 'a',
          List.replicate 900 'a', List.replicate 100 'a'] := by
  have hlen : (List.replicate 2500 'a').length = 2500 := List.length_replicate 2500 'a'
  rw [chunk_text, hlen]
  norm_num
  rw [show (2501 : Nat) = 2500 + 1 by norm_num,
    chunkLoop_cons 2500 _ 1000 200 0 (by rw [hlen]; norm_num)]
  rw [show (0 : Nat) + 1000 - 200 = 800 by norm_num,
    show (2500 : Nat) = 2499 + 1 by norm_num,
    chunkLoop_cons 2499 _ 1000 200 800 (by rw [hlen]; norm_num)]
  rw [show (800 : Nat) + 1000 - 200 = 1600 by norm_num,
    show (2499 : Nat) = 2498 + 1 by norm_num,
    chunkLoop_cons 2498 _ 1000 200 1600 (by rw [hlen]; norm_num)]
  rw [show (1600 : Nat) + 1000 - 200 = 2400 by norm_num,
    show (2498 : Nat) = 2497 + 1 by norm_num,
    chunkLoop_cons 2497 _ 1000 200 2400 (by rw [hlen]; norm_num)]
  rw [show (2400 : Nat) + 1000 - 200 = 3200 by norm_num,
    show (2497 : Nat) = 2496 + 1 by norm_num,
    chunkLoop_nil 2496 _ 1000 200 3200 (by rw [hlen]; norm_num)]
  simp only [List.drop_zero, List.drop_replicate, List.take_replicate]
  norm_num

/-- C1 counterexample: chunking 2500 identical characters with
`chunk_size = 1000`, `overlap = 200` does NOT return exactly the three
windows at offsets 0, 800, 1600: after the window at 1600 the loop sets
`start = 2600 - 200 = 2400 < 2500` and emits a fourth window. -/
theorem C1_counterexample :
    chunk_text (List.replicate 2500 'a') 1000 200 ≠
      some [((List.replicate 2500 'a').drop 0).take 1000,
            ((List.replicate 2500 'a').drop 800).take 1000,
            ((List.replicate 2500 'a').drop 1600).take 1000] := by
  rw [chunk2500]
  intro h
  simp only [Option.some.injEq] at h
  have hlen := congrArg List.length h
  simp only [List.length_cons, List.length_nil] at hlen
  omega

/-- C1 (amended): chunking `'a' * 2500` with `chunk_size = 1000`,
`overlap = 200` returns exactly the windows at offsets 0, 800, 1600 and
2400; the third window covers `[1600:2500]` and has length 900, and the
final (fourth) window covers `[2400:2500]` and has length 100. -/
theorem C1_amended :
    chunk_text (List.replicate 2500 'a') 1000 200 =
      some [((List.replicate 2500 'a').drop 0).take 1000,
            ((List.replicate 2500 'a').drop 800).take 1000,
            ((List.replicate 2500 'a').drop 1600).take 1000,
            ((List.replicate 2500 'a').drop 2400).take 1000] ∧
    (((List.replicate 2500 'a').drop 1600).take 1000).length = 900 ∧
    (((List.replicate 2500 'a').drop 2400).take 1000).length = 100 := by
  refine ⟨?_, ?_, ?_⟩
  · rw [chunk2500]
    simp only [List.drop_zero, List.drop_replicate, List.take_replicate]
    norm_num
  · simp only [List.length_take, List.length_drop, List.length_replicate]
    norm_num
  · simp only [List.length_take, List.length_drop, List.length_replicate]
    norm_num

/-- C3: for every text longer than `chunk_size`, under the precondition
`overlap < chunk_size`, the `chunk_text` loop terminates: the start
pointer strictly increases each iteration (by `chunk_size - overlap ≥ 1`),
so fuel `text.length + 1` suffices and a result is produced. -/
theorem C3_loop_terminates {α : Type} (text : List α) (cs ov : Nat)
    (hlen : cs < text.length) (hov : ov < cs) :
    ∃ l, chunk_text text cs ov = some l := by
  unfold chunk_text
  rw [if_neg (by omega)]
  exact chunkLoop_terminates text cs ov hov (text.length + 1) 0 (by omega)

theorem C3_witness : ∃ l, chunk_text (List.range 3) 2 1 = some l :=
  C3_loop_terminates (List.range 3) 2 1 (by decide) (by decide)

/-- C5: for every text with `len(text) ≤ chunk_size` (the empty text
included), `chunk_text` returns exactly the single-element sequence
holding the whole text. -/
theorem C5_small_text {α : Type} (text : List α) (cs ov : Nat)
    (h : text.length ≤ cs) :
    chunk_text text cs ov = some [text] := by
  simp [chunk_text, h]

theorem C5_witness : chunk_text ([] : List Char) 1000 200 = some [[]] :=
  C5_small_text [] 1000 200 (by decide)

/-- C10: for every text, every positive `chunk_size` and every
`overlap < chunk_size`, `chunk_text` produces a result, the result is
non-empty, and every chunk in it has length at most `chunk_size`. -/
theorem C10_nonempty_bounded {α : Type} (text : List α) (cs ov : Nat)
    (_hcs : 0 < cs) (hov : ov < cs) :
    ∃ l, chunk_text text cs ov = some l ∧ l ≠ [] ∧ ∀ c ∈ l, c.length ≤ cs := by
  by_cases h : text.length ≤ cs
  · refine ⟨[text], by simp [chunk_text, h], by simp, ?_⟩
    intro c hc
    rw [List.mem_singleton] at hc
    subst hc
    exact h
  · obtain ⟨l, hl⟩ := chunkLoop_terminates text cs ov hov (text.length + 1) 0 (by omega)
    refine ⟨l, ?_, ?_, ?_⟩
    · unfold chunk_text
      rw [if_neg h]
      exact hl
    · intro hnil
      subst hnil
      have := chunkLoop_covers text cs ov (text.length + 1) 0 [] hl
      simp only [List.length_nil] at this
      omega
    · exact chunkLoop_mem_length text cs ov (text.length + 1) 0 l hl

theorem C10_witness :
    ∃ l, chunk_text (List.range 5) 2 1 = some l ∧ l ≠ [] ∧ ∀ c ∈ l, c.length ≤ 2 :=
  C10_nonempty_bounded (List.range 5) 2 1 (by decide) (by decide)

/-- C4 counterexample: with `text = List.range 15`, `chunk_size = 10`,
`overlap = 8` (a valid configuration for the claim: 15 > 10 and 8 < 10),
`chunk_text` produces 8 chunks, and the consecutive pair at indices
(3, 4) — not the last pair, which is (6, 7) — shares only 7 elements,
not `overlap = 8`: chunk 3 is the truncated window `[6:15]` of length 9,
so its suffix from position `chunk_size - overlap = 2` has length 7. -/
theorem C4_counterexample :
    (10 : Nat) < (List.range 15).length ∧ (8 : Nat) < 10 ∧ (3 : Nat) + 2 < 8 ∧
    (chunk_text (List.range 15) 10 8).map
      (fun l => (l.length, ((l.getD 3 []).drop (10 - 8)).length)) = some (8, 7) ∧
    (7 : Nat) ≠ 8 := by
  refine ⟨by decide, by decide, by decide, by decide, by decide⟩

/-- C4 (amended): for every text `T` with `len(T) > chunk_size` and
`overlap < chunk_size`, concatenating the first chunk with every later
chunk's non-overlapping residue (its suffix beyond the previous chunk)
reconstructs `T` exactly; and, under the additional hypothesis
`chunk_size ≥ 2 * overlap` (forced by the counterexample, where
`chunk_size < 2 * overlap` lets a non-final window be truncated), each
pair of consecutive chunks other than possibly the last pair overlaps in
exactly `overlap` elements: the suffix of one chunk from position
`chunk_size - overlap` equals the prefix of length `overlap` of the next
chunk, and that shared part has length exactly `overlap`. -/
theorem C4_amended {α : Type} (text : List α) (cs ov : Nat)
    (hlen : cs < text.length) (hov : ov < cs)
    (l : List (List α)) (hl : chunk_text text cs ov = some l) :
    reconstruct ov l = text ∧
    (2 * ov ≤ cs → ∀ k, k + 2 < l.length →
      (l.getD k []).drop (cs - ov) = (l.getD (k + 1) []).take ov ∧
      ((l.getD k []).drop (cs - ov)).length = ov) := by
  constructor
  · exact chunk_text_reconstruct text cs ov hov l hl
  · intro h2 k hk
    have hloop : chunkLoop (text.length + 1) text cs ov 0 = some l := by
      unfold chunk_text at hl
      rwa [if_neg (by omega)] at hl
    have hk1 : k < l.length := by omega
    have hk2 : k + 1 < l.length := by omega
    have hgk := chunkLoop_getD text cs ov (Nat.le_of_lt hov) _ 0 l hloop k hk1
    have hgk1 := chunkLoop_getD text cs ov (Nat.le_of_lt hov) _ 0 l hloop (k + 1) hk2
    have hlt := chunkLoop_start_lt text cs ov (Nat.le_of_lt hov) _ 0 l hloop (k + 2) hk
    have hexp : (k + 2) * (cs - ov) = k * (cs - ov) + (cs - ov) + (cs - ov) := by ring
    rw [hexp] at hlt
    constructor
    · rw [hgk, hgk1, List.drop_take, List.drop_drop, List.take_take]
      have e1 : cs - (cs - ov) = ov := by omega
      have e2 : 0 + k * (cs - ov) + (cs - ov) = 0 + (k + 1) * (cs - ov) := by ring
      have e3 : ov ⊓ cs = ov := min_eq_left (Nat.le_of_lt hov)
      rw [e1, e2, e3]
    · rw [hgk, List.drop_take, List.drop_drop, List.length_take, List.length_drop]
      have e1 : cs - (cs - ov) = ov := by omega
      rw [e1]
      omega

theorem C4_amended_witness :
    reconstruct 1 [[0, 1, 2], [2, 3, 4], [4, 5, 6], [6]] = List.range 7 ∧
    (2 * 1 ≤ 3 → ∀ k, k + 2 < ([[0, 1, 2], [2, 3, 4], [4, 5, 6], [6]] : List (List Nat)).length →
      (([[0, 1, 2], [2, 3, 4], [4, 5, 6], [6]] : List (List Nat)).getD k []).drop (3 - 1) =
        (([[0, 1, 2], [2, 3, 4], [4, 5, 6], [6]] : List (List Nat)).getD (k + 1) []).take 1 ∧
      ((([[0, 1, 2], [2, 3, 4], [4, 5, 6], [6]] : List (List Nat)).getD k []).drop (3 - 1)).length = 1) :=
  C4_amended (List.range 7) 3 1 (by decide) (by decide)
    [[0, 1, 2], [2, 3, 4], [4, 5, 6], [6]] (by decide)

/-!
Embedding of the document pipeline (`process_document`,
`process_all_documents`, `search_documents`).

External collaborators are modelled as inputs: the sentence-transformer
`encode` call is a function returning `Except` (an `error` models a
raised exception, caught by the method's `try`), the extracted text and
the md5 hash of the raw bytes are fields of the file description, and
ChromaDB's `collection.add` is an id-keyed upsert into an association
list (ChromaDB keys entries by id; whether a duplicate id is overwritten
or skipped does not affect any claim proved here, since the claims
concern which ids are present).  The in-memory `document_metadata` dict
is an association list; `save_metadata` (a whole-file JSON write) is
modelled as always succeeding.
-/

/-- One per-file record of `document_metadata`
(src/document_processor.py lines 169-175). -/
structure DocMeta where
  hash : String
  processed_date : String
  total_chunks : Nat
  file_type : String
  file_size : Nat
deriving DecidableEq, Repr

/-- The per-chunk metadata record (lines 152-158). -/
structure ChunkMeta where
  file_name : String
  chunk_index : Nat
  total_chunks : Nat
  file_type : String
  processed_date : String
deriving DecidableEq, Repr

/-- One vector-store entry: embedding vector, chunk text, chunk metadata
(the `(embeddings, documents, metadatas)` triple passed to
`collection.add`, lines 161-166). -/
structure VEntry where
  embedding : List Int
  document : List Char
  metadata : ChunkMeta
deriving DecidableEq, Repr

/-- The mutable state of a `DocumentProcessor`: the metadata dict, the
ChromaDB collection (keyed by chunk id), and a count of calls made to
the embedding model (so that "does not re-embed" is observable). -/
structure PState where
  document_metadata : List (String × DocMeta)
  vstore : List (String × VEntry)
  embedCalls : Nat
deriving DecidableEq, Repr

/-- Description of one file on disk, as `process_document` observes it:
its base name, its lowercased extension (`os.path.splitext(...)[1].lower()`),
the result of `get_file_hash` (md5 of the raw bytes; `error` models the
read raising), the text the matching extractor returns (the extractors
catch their own errors and return `""`), and `os.path.getsize`. -/
structure PFile where
  name : String
  ext : String
  hashResult : Except String String
  content : List Char
  size : Nat

/-- Python dict lookup `m[k]` / `k in m` on an association list. -/
def listLookup {β : Type} (m : List (String × β)) (k : String) : Option β :=
  (m.find? (fun p => p.1 == k)).map Prod.snd

/-- Python dict assignment `m[k] = v` (and ChromaDB id-keyed insertion):
replace the entry for `k` if present, else append it. -/
def listUpsert {β : Type} (m : List (String × β)) (k : String) (v : β) :
    List (String × β) :=
  if m.any (fun p => p.1 == k) then
    m.map (fun p => if p.1 == k then (k, v) else p)
  else
    m ++ [(k, v)]

/-- Lines 117-119: `file_name in self.document_metadata and
self.document_metadata[file_name]['hash'] == file_hash`. -/
def hashUpToDate (md : List (String × DocMeta)) (name hash : String) : Bool :=
  match listLookup md name with
  | some m => m.hash == hash
  | none => false

/-- Line 123 dispatch: the supported extensions. -/
def supportedExt (ext : String) : Bool :=
  ext == ".pdf" || ext == ".docx" || ext == ".txt"

/-- Line 135: `not text.strip()` — true iff the text is empty or all
whitespace. -/
def isBlank (text : List Char) : Bool :=
  text.all (fun c => c.isWhitespace)

/-- Embedding of `DocumentProcessor.process_document` (lines 109-183).
Returns the Python return value and the state after the call; every
`false` return corresponds to a caught failure (the whole body runs
inside `try ... except: return False`). -/
def process_document (embed : List (List Char) → Except String (List (List Int)))
    (now : String) (file : PFile) (st : PState) : Bool × PState :=
  match file.hashResult with
  | Except.error _ => (false, st)
  | Except.ok file_hash =>
    if hashUpToDate st.document_metadata file.name file_hash then
      (true, st)
    else if supportedExt file.ext then
      if isBlank file.content then
        (false, st)
      else
        match chunk_text file.content 1000 200 with
        | none => (false, st)
        | some chunks =>
          let st1 : PState := { st with embedCalls := st.embedCalls + 1 }
          match embed chunks with
          | Except.error _ => (false, st1)
          | Except.ok embeddings =>
            if embeddings.length ≠ chunks.length then
              (false, st1)
            else
              let n := chunks.length
              let entries := (List.range n).map (fun i =>
                (file.name ++ "_" ++ toString i,
                 VEntry.mk (embeddings.getD i []) (chunks.getD i [])
                   (ChunkMeta.mk file.name i n file.ext now)))
              let newStore := entries.foldl (fun s e => listUpsert s e.1 e.2) st1.vstore
              let newMeta :=
                listUpsert st1.document_metadata file.name
                  (DocMeta.mk file_hash now n file.ext file.size)
              (true, PState.mk newMeta newStore st1.embedCalls)
    else
      (false, st)

/-- Embedding of `DocumentProcessor.process_all_documents` (lines
185-194): process every file in the directory in order, recording one
boolean per file name. -/
def process_all_documents (embed : List (List Char) → Except String (List (List Int)))
    (now : String) (files : List PFile) (st : PState) :
    List (String × Bool) × PState :=
  files.foldl
    (fun acc f =>
      let r := process_document embed now f acc.2
      (acc.1 ++ [(f.name, r.1)], r.2))
    ([], st)

/-- One formatted search result (lines 209-215): chunk text, chunk
metadata and distance. -/
structure SearchRow where
  content : List Char
  metadata : ChunkMeta
  distance : Int
deriving DecidableEq, Repr

/-- Embedding of `DocumentProcessor.search_documents` (lines 196-221).
The query embedding call and the ChromaDB `collection.query` call are
collaborators that may raise (`Except.error`); the body's `try` catches
either and returns the empty list. -/
def search_documents (embedQ : List Char → Except String (List Int))
    (storeQuery : List (String × VEntry) → List Int → Nat → Except String (List SearchRow))
    (query : List Char) (n_results : Nat) (st : PState) : List SearchRow :=
  match embedQ query with
  | Except.error _ => []
  | Except.ok qv =>
    match storeQuery st.vstore qv n_results with
    | Except.error _ => []
    | Except.ok rows => rows

/-- C6: re-processing a file whose stored metadata hash matches the file
hash returns `True` and leaves the whole processor state — vector store,
metadata store and embedding-call count — unchanged, so the embedding
function is not invoked. -/
theorem C6_skip_is_noop (embed : List (List Char) → Except String (List (List Int)))
    (now : String) (file : PFile) (st : PState) (h : String)
    (hh : file.hashResult = Except.ok h)
    (hm : hashUpToDate st.document_metadata file.name h = true) :
    process_document embed now file st = (true, st) := by
  unfold process_document
  rw [hh]
  simp [hm]

theorem C6_witness :
    process_document (fun _ => Except.error "down") "d2"
      (PFile.mk "a.txt" ".txt" (Except.ok "h") ['x'] 1)
      (PState.mk [("a.txt", DocMeta.mk "h" "d1" 1 ".txt" 1)] [] 0) =
    (true, PState.mk [("a.txt", DocMeta.mk "h" "d1" 1 ".txt" 1)] [] 0) :=
  C6_skip_is_noop _ _ _ _ "h" rfl (by decide)

/-- C9: when `process_document` fails because the extension is not one of
`.pdf`/`.docx`/`.txt`, or because the extracted text is empty or
whitespace-only, it returns `False` with the metadata store and the
vector store (indeed the whole state) unchanged. -/
theorem C9_reject_is_noop (embed : List (List Char) → Except String (List (List Int)))
    (now : String) (file : PFile) (st : PState) (h : String)
    (hh : file.hashResult = Except.ok h)
    (hm : hashUpToDate st.document_metadata file.name h = false)
    (hbr : supportedExt file.ext = false ∨ isBlank file.content = true) :
    process_document embed now file st = (false, st) := by
  unfold process_document
  rw [hh]
  rcases hbr with hb | hb
  · simp [hm, hb]
  · cases hse : supportedExt file.ext with
    | false => simp [hm, hse]
    | true => simp [hm, hse, hb]

theorem C9_witness :
    process_document (fun _ => Except.ok []) "d"
      (PFile.mk "notes.md" ".md" (Except.ok "h") ['x'] 1) (PState.mk [] [] 0) =
    (false, PState.mk [] [] 0) :=
  C9_reject_is_noop _ _ _ _ "h" rfl (by decide) (Or.inl (by decide))

/-- C7: whenever a step of `search_documents` fails — the query-embedding
call raises, the vector-store query raises, or the index is empty (in
which case ChromaDB reports no neighbours) — the function returns the
empty list; it is a total function, so no exception reaches the caller. -/
theorem C7_search_failure_empty
    (embedQ : List Char → Except String (List Int))
    (storeQuery : List (String × VEntry) → List Int → Nat → Except String (List SearchRow))
    (query : List Char) (n : Nat) (st : PState)
    (hfail : (∃ e, embedQ query = Except.error e) ∨
             (∃ v e, embedQ query = Except.ok v ∧ storeQuery st.vstore v n = Except.error e) ∨
             (st.vstore = [] ∧ ∀ v m, storeQuery [] v m = Except.ok [])) :
    search_documents embedQ storeQuery query n st = [] := by
  unfold search_documents
  rcases hfail with ⟨e, he⟩ | ⟨v, e, hv, he⟩ | ⟨hnil, hq⟩
  · simp [he]
  · simp [hv, he]
  · rw [hnil]
    cases hq2 : embedQ query with
    | error e => rfl
    | ok v => simp [hq]

theorem C7_witness :
    search_documents (fun _ => Except.error "model down")
      (fun _ _ _ => Except.ok []) ['q'] 5 (PState.mk [] [] 0) = [] :=
  C7_search_failure_empty _ _ _ _ _ (Or.inl ⟨"model down", rfl⟩)

/-- The batch fold of `process_all_documents` reports one entry per file,
in order, whatever each `process_document` call returns. -/
theorem process_all_map_fst (embed : List (List Char) → Except String (List (List Int)))
    (now : String) :
    ∀ (files : List PFile) (st : PState) (acc : List (String × Bool)),
      ((files.foldl (fun a f =>
          let r := process_document embed now f a.2
          (a.1 ++ [(f.name, r.1)], r.2)) (acc, st)).1).map Prod.fst
        = acc.map Prod.fst ++ files.map PFile.name := by
  intro files
  induction files with
  | nil => intro st acc; simp
  | cons f fs ih =>
    intro st acc
    simp only [List.foldl_cons]
    rw [ih]
    simp

/-- C8: for every list of files, `process_all_documents` returns exactly
one boolean result per file (same names, same order, same count); this
holds for every embedding collaborator — including ones that fail on some
documents — because each `process_document` call catches its own
failures, so one document's failure never prevents the remaining
documents from being processed and reported. -/
theorem C8_one_result_per_file (embed : List (List Char) → Except String (List (List Int)))
    (now : String) (files : List PFile) (st : PState) :
    ((process_all_documents embed now files st).1).map Prod.fst = files.map PFile.name ∧
    ((process_all_documents embed now files st).1).length = files.length := by
  have h := process_all_map_fst embed now files st []
  constructor
  · simpa [process_all_documents] using h
  · have hlen := congrArg List.length h
    simpa [process_all_documents] using hlen

/-- Embedding collaborator for the C2 scenario: embeds every chunk as the
one-dimensional vector `[0]`. -/
def c2embed : List (List Char) → Except String (List (List Int)) :=
  fun chunks => Except.ok (chunks.map (fun _ => [0]))

/-- First version of the C2 file: 1001 characters, which chunk into 2
windows (`doc.txt_0`, `doc.txt_1`). -/
def c2fileV1 : PFile :=
  PFile.mk "doc.txt" ".txt" (Except.ok "hash1") (List.replicate 1001 'a') 1001

/-- Second version of the same file: different hash, 500 characters,
which chunk into a single window (`doc.txt_0`). -/
def c2fileV2 : PFile :=
  PFile.mk "doc.txt" ".txt" (Except.ok "hash2") (List.replicate 500 'b') 500

/-- The empty processor state. -/
def c2st0 : PState := PState.mk [] [] 0

set_option maxRecDepth 8000 in
/-- C2 fails on the code: after processing the 1001-character version of
`doc.txt` (2 chunks) and then re-processing the changed 500-character
version (1 chunk), the metadata records `total_chunks = 1`, yet the
vector store still holds the stale id `doc.txt_1` carrying the FIRST
version's chunk metadata (`chunk_index 1`, `total_chunks 2`, processed
date "t0") — `process_document` never deletes the previous version's
ids, it only overwrites the ids it re-uses. -/
theorem C2_code_bug :
    (listLookup ((process_document c2embed "t1" c2fileV2
        (process_document c2embed "t0" c2fileV1 c2st0).2).2).document_metadata
        "doc.txt").map (fun m => m.total_chunks) = some 1 ∧
    (listLookup ((process_document c2embed "t1" c2fileV2
        (process_document c2embed "t0" c2fileV1 c2st0).2).2).vstore
        "doc.txt_1").map (fun e => e.metadata) =
      some (ChunkMeta.mk "doc.txt" 1 2 ".txt" "t0") := by
  decide

end AgentChatbot
